import Mathlib

/-!
Verification development for the bakery build tool (a native build system for
C/C++ projects). The definitions below are a shallow embedding of the Rust
sources: src/project.rs (project opening, staleness selection, legacy
orchestrator), src/main.rs (the dependency-ordered task scheduler),
src/task/build.rs (the live build task) and src/task/run.rs (the live run
task). Content digests (blake3 hashes) are modelled as natural numbers; the
filesystem and the external toolchain are modelled as explicit environments
passed to the functions that consult them.
-/

namespace Bakery

/-- Constant from src/project.rs line 24 and src/main.rs line 23. -/
def BUILD_CONFIGURATION_FILE : String := "bakery.toml"

/-- Constant from src/project.rs line 25 (build output directory). -/
def BAKERY_BUILD_DIRECTORY : String := ".bakery/build"

/-- Linux value of DYNAMIC_LIBRARY_EXTENSION, src/project.rs lines 37-43. -/
def DYNAMIC_LIBRARY_EXTENSION : String := "so"

/-- Constant OBJECT_FILE_EXTENSION, src/project.rs line 53. -/
def OBJECT_FILE_EXTENSION : String := "o"

/-- Language enum from src/config/project.rs. -/
inductive Language where
  | c
  | cpp
deriving DecidableEq, Repr

/-- Distribution enum from src/config/project.rs. -/
inductive Distribution where
  | executable
  | staticLibrary
  | dynamicLibrary
deriving DecidableEq, Repr

/-- OptimizationLevel enum from src/config/project.rs. -/
inductive OptimizationLevel where
  | zero
  | one
  | two
  | three
  | four
  | size
  | debug
deriving DecidableEq, Repr

/-! ## Staleness selection (src/project.rs lines 658-692, Project::get_sources_to_compile;
identical logic in src/task/build.rs lines 115-153, Build::collect_sources_to_compile). -/

/-- The facts about one source file that the staleness check consults:
the cached digest from the loaded hash map (`self.hashes.get(source)`),
whether the object file exists in the build directory (`fs::metadata(...)`),
and the current content digest of the source file (`File::open` + mmap +
`blake3::hash`; `none` when the file cannot be opened, in which case the
code's `.unwrap_or(false)` treats the source as unchanged). -/
structure SourceState where
  cachedHash : Option Nat
  objectFileExists : Bool
  currentHash : Option Nat

/-- The per-source staleness predicate from the body of the filter closure in
Project::get_sources_to_compile (src/project.rs lines 664-689):
`hashes.get(source).map(|hash| !object_file_exists | source_file_changed).unwrap_or(true)`. -/
def isStale (st : SourceState) : Bool :=
  match st.cachedHash with
  | none => true
  | some hash =>
    let objectFileExists := st.objectFileExists
    let sourceFileChanged :=
      match st.currentHash with
      | some current => hash != current
      | none => false
    (!objectFileExists) || sourceFileChanged

/-- Project::get_sources_to_compile (src/project.rs lines 658-692):
if the configuration changed, every source is returned; otherwise the
sources are filtered by the staleness predicate. The rayon parallel filter
preserves the order of the source list, so a sequential filter is the
faithful embedding. -/
def getSourcesToCompile (hasProjectConfigurationChanged : Bool)
    (sources : List String) (fs : String → SourceState) : List String :=
  if hasProjectConfigurationChanged then
    sources
  else
    sources.filter (fun source => isStale (fs source))

/-- Staleness as worded by the specification (section 4.2): a source is stale
iff no cached digest exists for it, or its object file is absent, or its
current on-disk content digest differs from the cached one. -/
def specStaleSource (st : SourceState) : Bool :=
  st.cachedHash.isNone || (!st.objectFileExists) ||
    (match st.cachedHash, st.currentHash with
     | some hash, some current => current != hash
     | _, _ => false)

/-! ## Configuration-change flag (src/project.rs lines 140-143). -/

/-- The derived flag computed in Project::open, src/project.rs lines 140-143:
`hashes.get(BUILD_CONFIGURATION_FILE).map(|hash| *hash != build_configuration_hash).unwrap_or_default()`.
Note that `unwrap_or_default()` on `bool` yields `false`, so an absent
persisted digest yields `false`. -/
def hasProjectConfigurationChanged (lookup : String → Option Nat)
    (buildConfigurationHash : Nat) : Bool :=
  match lookup BUILD_CONFIGURATION_FILE with
  | some hash => hash != buildConfigurationHash
  | none => false

/-! ## Project-name validation (src/project.rs lines 55-57 and 124-128).
NAME_REGEX is the pattern [a-zA-Z][a-zA-Z0-9]+ and the check is
`NAME_REGEX.is_match(name)`, which is an unanchored substring search. -/

/-- ASCII letter test, the character class [a-zA-Z]. -/
def isAsciiLetterChar (c : Char) : Bool :=
  (97 ≤ c.toNat && c.toNat ≤ 122) || (65 ≤ c.toNat && c.toNat ≤ 90)

/-- ASCII letter-or-digit test, the character class [a-zA-Z0-9]. -/
def isAsciiAlnumChar (c : Char) : Bool :=
  isAsciiLetterChar c || (48 ≤ c.toNat && c.toNat ≤ 57)

/-- Existence of a (shortest) match of [a-zA-Z][a-zA-Z0-9]+ anywhere in the
character list: some position holds a letter immediately followed by a
letter-or-digit. A match of the full pattern exists at a position iff this
two-character prefix exists there, so this is exactly what
`Regex::is_match` tests. -/
def containsNamePair : List Char → Bool
  | c1 :: c2 :: rest =>
    (isAsciiLetterChar c1 && isAsciiAlnumChar c2) || containsNamePair (c2 :: rest)
  | _ => false

/-- The name check performed by Project::open at src/project.rs line 124:
`NAME_REGEX.is_match(&build_configuration.project.name)`. -/
def nameCheckPasses (name : String) : Bool :=
  containsNamePair name.data

/-- The naming pattern as worded by the specification: the WHOLE name matches
[a-zA-Z][a-zA-Z0-9]+, i.e. a letter followed by one or more
letters-or-digits. Used to compare the spec's reading with the code's
unanchored check. -/
def specNameFullMatch (name : String) : Bool :=
  match name.data with
  | c :: rest => isAsciiLetterChar c && !rest.isEmpty && rest.all isAsciiAlnumChar
  | [] => false

/-! ## Persisted hash cache loading (src/project.rs lines 130-138). -/

/-- Hex value of one character, as accepted by blake3's Hash::from_hex. -/
def hexVal (c : Char) : Option Nat :=
  if 48 ≤ c.toNat && c.toNat ≤ 57 then some (c.toNat - 48)
  else if 97 ≤ c.toNat && c.toNat ≤ 102 then some (c.toNat - 87)
  else if 65 ≤ c.toNat && c.toNat ≤ 70 then some (c.toNat - 55)
  else none

/-- blake3 Hash::from_hex: exactly 64 hex characters decode to a digest
(modelled as the accumulated natural number); anything else fails. -/
def hexDecode (s : String) : Option Nat :=
  if s.length = 64 then
    s.data.foldl (fun acc c => acc.bind (fun a => (hexVal c).map (fun v => a * 16 + v)))
      (some 0)
  else
    none

/-- The state of the persisted hashes file as read by Project::open:
the file may be missing (`fs::read_to_string` fails), present but not valid
JSON for a string-to-string map (`serde_json::from_str` fails, tolerated via
`unwrap_or_default`), or a parsed string map. -/
inductive HashesFileState where
  | missing
  | unparsable
  | parsed (entries : List (String × String))

/-- Sequential traversal of a list under a possibly-failing step; the first
failure aborts. Models an iterator of fallible operations collected into a
map or vector, with a panicking `unwrap` modelled as `none`. -/
def optionTraverse (f : β → Option γ) : List β → Option (List γ)
  | [] => some []
  | x :: rest =>
    match f x with
    | none => none
    | some y =>
      match optionTraverse f rest with
      | none => none
      | some ys => some (y :: ys)

/-- Hash-cache loading from Project::open, src/project.rs lines 130-138.
A missing file and an unparsable file both yield the empty map; a parsed map
has each value decoded with `Hash::from_hex(value).unwrap()` - the `unwrap`
panics when any value is not a valid hex digest, modelled as `none`. -/
def loadHashes : HashesFileState → Option (List (String × Nat))
  | .missing => some []
  | .unparsable => some []
  | .parsed entries =>
    optionTraverse (fun kv => (hexDecode kv.2).map (fun h => (kv.1, h))) entries

/-! ## The resolved project tree (struct Project and enum Dependency,
src/project.rs lines 59-84). The configuration sub-blocks that only carry
toolchain flag strings (description, author, c, cpp, gcc, gpp) are not
consulted by any verified claim and are omitted from the model. -/

mutual

inductive Project where
  | mk (basePath : String) (name : String) (language : Language)
      (distribution : Distribution) (sources : List String)
      (includes : List String) (dependencies : List Dependency)
      (optimization : OptimizationLevel) (enableAllWarnings : Bool)
      (treatAllWarningsAsErrors : Bool)
      (hasProjectConfigurationChanged : Bool)
      (hashes : List (String × Nat))

inductive Dependency where
  | system (name : String)
  | project (p : Project)

end

def Project.basePath : Project → String
  | .mk b _ _ _ _ _ _ _ _ _ _ _ => b

def Project.name : Project → String
  | .mk _ n _ _ _ _ _ _ _ _ _ _ => n

def Project.language : Project → Language
  | .mk _ _ l _ _ _ _ _ _ _ _ _ => l

def Project.distribution : Project → Distribution
  | .mk _ _ _ d _ _ _ _ _ _ _ _ => d

def Project.sources : Project → List String
  | .mk _ _ _ _ s _ _ _ _ _ _ _ => s

def Project.includes : Project → List String
  | .mk _ _ _ _ _ i _ _ _ _ _ _ => i

def Project.dependencies : Project → List Dependency
  | .mk _ _ _ _ _ _ d _ _ _ _ _ => d

def Project.hasChangedFlag : Project → Bool
  | .mk _ _ _ _ _ _ _ _ _ _ h _ => h

def Project.hashes : Project → List (String × Nat)
  | .mk _ _ _ _ _ _ _ _ _ _ _ h => h

/-! ## Project opening (Project::open, src/project.rs lines 87-250).
The filesystem is modelled as a recursive directory environment; `open` is
given a fuel parameter because the Rust recursion does not terminate on
cyclic dependency graphs (spec section 9). -/

/-- Raw dependency entry of the configuration file (src/config/project.rs,
enum Dependency): either an opaque system library name or a local path. -/
inductive RawDependency where
  | system (name : String)
  | localDep (path : String)

/-- The parsed configuration file (struct ProjectConfiguration,
src/config/project.rs), restricted to the fields the engine consults. -/
structure RawConfig where
  name : String
  language : Language
  distribution : Distribution
  sources : List String
  includes : List String
  dependencies : List RawDependency
  optimization : OptimizationLevel
  enableAllWarnings : Bool
  treatAllWarningsAsErrors : Bool

/-- What Project::open finds at {dir}/bakery.toml: the file may be missing or
unreadable (File::open / read fails), present but rejected by the TOML
parser, or parsed, in which case the blake3 digest of its raw bytes is also
recorded (src/project.rs lines 92-122). -/
inductive ConfigFileState where
  | missing
  | malformed
  | parsed (config : RawConfig) (contentHash : Nat)

/-- enum BuildConfigurationError, src/project.rs lines 746-758. The payload
of incorrectWildcard is the glob library's message in Rust; the model stores
the offending pattern. Note there is no dependency-is-not-a-library variant
in src/project.rs, although src/main.rs line 79 matches on one. -/
inductive BuildConfigurationError where
  | syntaxError
  | invalidName
  | incorrectWildcard (pattern : String)
  | incorrectSource (source : String)
  | incorrectInclude (inc : String)
deriving DecidableEq, Repr

/-- enum ProjectOpenError, src/project.rs lines 738-744. -/
inductive ProjectOpenError where
  | invalidProjectPath
  | invalidBuildConfiguration (e : BuildConfigurationError)
deriving DecidableEq, Repr

/-- The directory environment seen by Project::open: the configuration file,
the persisted hashes file, the glob expansion oracle (none = the pattern
fails to compile; an entry none = a per-entry glob read error), the
source-path validity check (exists, regular file, relative, not a symlink:
src/project.rs line 192), the include-directory validity check (line 220)
and the nested directories reachable through local dependency paths
(`none` stands for a path whose bakery.toml cannot be opened, which makes
the nested recursive open fail with InvalidProjectPath at once). -/
inductive ProjectDir where
  | mk (basePath : String) (config : ConfigFileState) (hashesFile : HashesFileState)
      (glob : String → Option (List (Option String)))
      (sourceOk : String → Bool) (includeOk : String → Bool)
      (subdir : String → Option ProjectDir)

def ProjectDir.basePath : ProjectDir → String
  | .mk b _ _ _ _ _ _ => b

def ProjectDir.config : ProjectDir → ConfigFileState
  | .mk _ c _ _ _ _ _ => c

def ProjectDir.hashesFile : ProjectDir → HashesFileState
  | .mk _ _ h _ _ _ _ => h

def ProjectDir.glob : ProjectDir → String → Option (List (Option String))
  | .mk _ _ _ g _ _ _ => g

def ProjectDir.sourceOk : ProjectDir → String → Bool
  | .mk _ _ _ _ s _ _ => s

def ProjectDir.includeOk : ProjectDir → String → Bool
  | .mk _ _ _ _ _ i _ => i

def ProjectDir.subdir : ProjectDir → String → Option ProjectDir
  | .mk _ _ _ _ _ _ s => s

/-- The outcome of Project::open in the model: panic (a failed unwrap while
decoding the hashes file), fuel exhaustion (standing for the unbounded
recursion of the Rust code on cyclic graphs), an error return, or a project. -/
inductive OpenOutcome where
  | panic
  | fuelOut
  | err (e : ProjectOpenError)
  | ok (p : Project)

/-- Per-dependency resolution outcome (one arm of the iterator in
src/project.rs lines 145-154). -/
inductive DepResolution where
  | ok (d : Dependency)
  | panic
  | fuelOut
  | err (e : ProjectOpenError)

/-- Outcome of collecting the dependency list. -/
inductive DepsOutcome where
  | panic
  | fuelOut
  | err (e : ProjectOpenError)
  | ok (deps : List Dependency)

/-- `collect::<Result<Vec<_>, _>>()` over the dependency iterator: the first
non-ok element (in declaration order) decides the outcome; a panic inside
the iterator aborts at its position. -/
def collectDeps : List DepResolution → DepsOutcome
  | [] => .ok []
  | .ok d :: rest =>
    match collectDeps rest with
    | .ok ds => .ok (d :: ds)
    | other => other
  | .panic :: _ => .panic
  | .fuelOut :: _ => .fuelOut
  | .err e :: _ => .err e

/-- Sequential traversal of a list under a fallible step, aborting at the
first error: `collect::<Result<Vec<_>, _>>()` over an iterator of Results. -/
def exceptMap (f : β → Except ε γ) : List β → Except ε (List γ)
  | [] => .ok []
  | x :: rest =>
    match f x with
    | .error e => .error e
    | .ok y =>
      match exceptMap f rest with
      | .error e => .error e
      | .ok ys => .ok (y :: ys)

/-- Expansion of one declared source glob pattern (src/project.rs lines
160-185): a pattern that fails to compile yields IncorrectWildcard; a
per-entry read error yields IncorrectSource carrying the pattern. -/
def expandPattern (pattern : String) :
    Option (List (Option String)) → Except ProjectOpenError (List String)
  | none => .error (.invalidBuildConfiguration (.incorrectWildcard pattern))
  | some entries =>
    exceptMap (fun e =>
      match e with
      | some path => .ok path
      | none => .error (.invalidBuildConfiguration (.incorrectSource pattern)))
      entries

/-- Source expansion and validation (src/project.rs lines 156-200): expand
every pattern, concatenate in declaration order without deduplication, then
check each matched path. -/
def resolveSources (glob : String → Option (List (Option String)))
    (sourceOk : String → Bool) (patterns : List String) :
    Except ProjectOpenError (List String) :=
  match exceptMap (fun pat => expandPattern pat (glob pat)) patterns with
  | .error e => .error e
  | .ok expanded =>
    exceptMap (fun source =>
      if sourceOk source then
        .ok source
      else
        .error (.invalidBuildConfiguration (.incorrectSource source)))
      expanded.flatten

/-- Include computation and validation (src/project.rs lines 202-228):
the project's own declared includes followed by the includes of every
already-resolved Project-kind dependency, each validated. -/
def resolveIncludes (includeOk : String → Bool) (own : List String)
    (deps : List Dependency) : Except ProjectOpenError (List String) :=
  exceptMap
    (fun inc =>
      if includeOk inc then
        .ok inc
      else
        .error (.invalidBuildConfiguration (.incorrectInclude inc)))
    (own ++ (deps.filterMap (fun d =>
      match d with
      | .project p => some p.includes
      | _ => none)).flatten)

/-- Project::open (src/project.rs lines 87-250) with explicit recursion fuel:
read and digest the configuration file, parse it, check the name with
NAME_REGEX.is_match, load the hashes file, derive the configuration-change
flag, resolve dependencies recursively (a nested failure propagates
unchanged), expand and validate sources, then compute and validate includes.
There is no check on the distribution of local dependencies. -/
def openFuel : Nat → ProjectDir → OpenOutcome
  | 0, _ => .fuelOut
  | fuel + 1, d =>
    match d.config with
    | .missing => .err .invalidProjectPath
    | .malformed => .err (.invalidBuildConfiguration .syntaxError)
    | .parsed config configHash =>
      if !nameCheckPasses config.name then
        .err (.invalidBuildConfiguration .invalidName)
      else
        match loadHashes d.hashesFile with
        | none => .panic
        | some hashes =>
          let hasChanged :=
            hasProjectConfigurationChanged (fun k => hashes.lookup k) configHash
          let depResults := config.dependencies.map (fun rd =>
            match rd with
            | .system n => DepResolution.ok (.system n)
            | .localDep path =>
              match d.subdir path with
              | none => DepResolution.err .invalidProjectPath
              | some sub =>
                match openFuel fuel sub with
                | .ok p => .ok (.project p)
                | .panic => .panic
                | .fuelOut => .fuelOut
                | .err e => .err e)
          match collectDeps depResults with
          | .panic => .panic
          | .fuelOut => .fuelOut
          | .err e => .err e
          | .ok dependencies =>
            match resolveSources d.glob d.sourceOk config.sources with
            | .error e => .err e
            | .ok sources =>
              match resolveIncludes d.includeOk config.includes dependencies with
              | .error e => .err e
              | .ok includes =>
                .ok (.mk d.basePath config.name config.language
                  config.distribution sources includes dependencies
                  config.optimization config.enableAllWarnings
                  config.treatAllWarningsAsErrors hasChanged hashes)

/-! ## Dependency-ordered task scheduler
(execute_task_and_its_dependencies, src/main.rs lines 90-111). -/

section Scheduler

variable {α : Type} [DecidableEq α]

/-- The two-stack loop of execute_task_and_its_dependencies: pop the front of
the processing stack, push it onto the front of the record stack, then push
each of its declared dependencies onto the front of the processing stack in
declared order (so the last-declared dependency ends up on top). The head of
each list is the front of the corresponding VecDeque. The Rust loop has no
termination guard (a cyclic table loops forever), so the model takes fuel
and returns none when it runs out. -/
def schedulerLoop (deps : α → List α) : Nat → List α → List α → Option (List α)
  | _, [], record => some record
  | 0, _ :: _, _ => none
  | fuel + 1, t :: stack, record =>
    schedulerLoop deps fuel ((deps t).reverse ++ stack) (t :: record)

/-- itertools `unique()` with an explicit set of already-seen ids: an id is
emitted only the first time it is met. -/
def uniqueFirstAux (seen : List α) : List α → List α
  | [] => []
  | x :: xs =>
    if seen.contains x then
      uniqueFirstAux seen xs
    else
      x :: uniqueFirstAux (x :: seen) xs

/-- itertools `unique()` over the record stack iterated front to back: keep
only the first occurrence of each id. -/
def uniqueFirst (l : List α) : List α :=
  uniqueFirstAux [] l

/-- The exact order in which the scheduler invokes on_execute, starting from
the root task id (src/main.rs lines 95-110). -/
def executionOrder (deps : α → List α) (fuel : Nat) (root : α) :
    Option (List α) :=
  (schedulerLoop deps fuel [root] []).map uniqueFirst

/-- The record block contributed by one task: the blocks of its dependencies
in declared order, then the task itself. Written with fuel; for a rank
function witnessing acyclicity, any fuel at least the task's rank gives the
stable value. -/
def visitF (deps : α → List α) : Nat → α → List α
  | 0, t => [t]
  | n + 1, t => ((deps t).flatMap (visitF deps n)) ++ [t]

/-- The stable record block of a task under a given rank function. -/
def visitAt (deps : α → List α) (rank : α → Nat) (t : α) : List α :=
  visitF deps (rank t) t

/-- Record contributed by processing a whole stack (earlier stack entries are
processed first and therefore sit deeper, i.e. further right, in the record
list, whose head is the most recently pushed id). -/
def visitList (deps : α → List α) (rank : α → Nat) : List α → List α
  | [] => []
  | t :: rest => visitList deps rank rest ++ visitAt deps rank t

/-- Number of loop iterations needed to clear a stack: every iteration pops
one id and records it, so the total is the length of the produced record. -/
def schedulerCost (deps : α → List α) (rank : α → Nat) (stack : List α) : Nat :=
  (stack.map (fun s => (visitAt deps rank s).length)).sum

/-- Index of the first occurrence of an element in a list (length of the list
when absent). -/
def fidx : List α → α → Nat
  | [], _ => 0
  | y :: l, x => if y = x then 0 else fidx l x + 1

/-- Reachability along declared dependencies (a task reaches itself). -/
inductive Reaches (deps : α → List α) : α → α → Prop
  | refl (t : α) : Reaches deps t t
  | tail {t d u : α} : d ∈ deps t → Reaches deps d u → Reaches deps t u

/-- v is a transitive dependency of u: reachable in at least one step. -/
def TransDepends (deps : α → List α) (u v : α) : Prop :=
  ∃ d ∈ deps u, Reaches deps d v

end Scheduler

/-- The diamond task table of the claim and of the unit test in src/main.rs:
A depends on [B, C], B on [C], C on [D], D on nothing. -/
def diamondDeps : String → List String := fun t =>
  if t = "A" then ["B", "C"]
  else if t = "B" then ["C"]
  else if t = "C" then ["D"]
  else []

/-- A rank function witnessing that the diamond table is acyclic. -/
def diamondRank : String → Nat := fun t =>
  if t = "A" then 3
  else if t = "B" then 2
  else if t = "C" then 1
  else 0

/-! ## Parallel compilation batch (Project::build_source_code,
src/project.rs lines 360-572; the same fold/reduce and error check appear in
Build::build, src/task/build.rs lines 283-501). -/

/-- enum SourceFileBuildError, src/project.rs lines 791-797. -/
inductive SourceFileBuildError where
  | failedToCompile (diagnostic : String)
  | failedToHash (ioError : String)
deriving DecidableEq, Repr

/-- The subset of enum ProjectBuildError (src/project.rs lines 760-782)
reachable from the compilation batch. -/
inductive ProjectBuildError where
  | failedToOpenFile (ioError : String)
  | dependencyMustBeLibrary
  | compilationError (errors : List SourceFileBuildError)
  | linkageError (diagnostic : String)
  | archivalError (diagnostic : String)
deriving DecidableEq, Repr

/-- The external effects consulted by one compilation batch: the per-source
compiler invocation (some diagnostic = failure), the File::open and
hash_file steps used to digest a source after compiling it, the re-hash of
the configuration file at the top of the function, and the final
link/archive invocation. -/
structure CompileEnv where
  compile : String → Option String
  openSourceFile : String → Except String Unit
  hashSourceFile : String → Except String Nat
  rehashConfig : Except String Nat
  finalize : Option String

/-- The body of the rayon fold closure for one source (src/project.rs lines
382-398): compile, then open, then hash; a failure at any step contributes
exactly one SourceFileBuildError, success contributes the new digest. -/
def compileOne (env : CompileEnv) (source : String) :
    Except SourceFileBuildError Nat :=
  match env.compile source with
  | some diagnostic => .error (.failedToCompile diagnostic)
  | none =>
    match env.openSourceFile source with
    | .error e => .error (.failedToHash e)
    | .ok _ =>
      match env.hashSourceFile source with
      | .error e => .error (.failedToHash e)
      | .ok h => .ok h

/-- The fold/reduce over the parallel iterator (src/project.rs lines
378-411): every source is processed regardless of its siblings' outcomes;
per-worker hash maps and error lists are reduced by concatenation. The
sequential left fold is the order-preserving linearization of that
scatter/gather. -/
def foldSources (env : CompileEnv) (sources : List String) :
    List (String × Nat) × List SourceFileBuildError :=
  sources.foldl
    (fun acc source =>
      match compileOne env source with
      | .ok h => (acc.1 ++ [(source, h)], acc.2)
      | .error e => (acc.1, acc.2 ++ [e]))
    ([], [])

/-- The error entry a given source contributes, if any. -/
def compileErrOf (env : CompileEnv) (source : String) :
    Option SourceFileBuildError :=
  match compileOne env source with
  | .error e => some e
  | .ok _ => none

/-- The hash-map entry a given source contributes, if any. -/
def compileHashOf (env : CompileEnv) (source : String) :
    Option (String × Nat) :=
  match compileOne env source with
  | .ok h => some (source, h)
  | .error _ => none

/-- Result of one compilation batch: the build outcome plus the content
written to the hashes file, `none` when the file is not rewritten. -/
structure BuildBatchOutcome where
  result : Except ProjectBuildError Unit
  cacheWritten : Option (List (String × Nat))

/-- Project::build_source_code (src/project.rs lines 360-572): re-hash the
configuration file, run the parallel batch, fail with the aggregated
CompilationError (without touching the hashes file) when any source failed;
otherwise write the configuration digest plus the new source digests
(HashMap::extend lets a source entry shadow the configuration key, hence the
source entries come first for the first-match lookup), then link or archive
per distribution. -/
def buildSourceCode (env : CompileEnv) (distribution : Distribution)
    (sources : List String) : BuildBatchOutcome :=
  match env.rehashConfig with
  | .error e => ⟨.error (.failedToOpenFile e), none⟩
  | .ok configHash =>
    let folded := foldSources env sources
    if folded.2.isEmpty then
      let written := folded.1 ++ [(BUILD_CONFIGURATION_FILE, configHash)]
      match env.finalize with
      | some diagnostic =>
        match distribution with
        | .staticLibrary => ⟨.error (.archivalError diagnostic), some written⟩
        | _ => ⟨.error (.linkageError diagnostic), some written⟩
      | none => ⟨.ok (), some written⟩
    else
      ⟨.error (.compilationError folded.2), none⟩

/-! ## The run operation. -/

/-- enum ProjectRunError, src/project.rs lines 799-807. -/
inductive ProjectRunError where
  | failedToBuildProject (e : ProjectBuildError)
  | cannotRunNonExecutable
  | builtExecutableIsMissing
deriving DecidableEq, Repr

/-- External effects of run: the outcome of the recursive build and of
spawning the produced artifact. -/
structure RunEnv where
  buildResult : Except ProjectBuildError Unit
  spawnStatus : Except String Unit

/-- Observable trace of a run invocation. -/
structure RunTrace where
  buildInvoked : Bool
  executableSpawned : Bool
  result : Except ProjectRunError Unit

/-- Legacy Project::run (src/project.rs lines 252-278, not reachable from
main): the distribution is checked before anything else, and a
non-executable project fails with CannotRunNonExecutable without building
or spawning. -/
def projectRun (env : RunEnv) (p : Project) : RunTrace :=
  if p.distribution != .executable then
    ⟨false, false, .error .cannotRunNonExecutable⟩
  else
    match env.buildResult with
    | .error e => ⟨true, false, .error (.failedToBuildProject e)⟩
    | .ok _ =>
      match env.spawnStatus with
      | .error _ => ⟨true, true, .error .builtExecutableIsMissing⟩
      | .ok _ => ⟨true, true, .ok ()⟩

/-- Observable trace of the live run task. -/
structure RunTaskTrace where
  warned : Bool
  executableSpawned : Bool

/-- The live run task (Run::on_execute, src/task/run.rs lines 30-50): a
non-executable distribution only triggers an eprintln warning; there is no
early return, so the executable path is spawned unconditionally. (The build
happens beforehand as the scheduler-ordered "build" dependency of "run".) -/
def runOnExecute (p : Project) : RunTaskTrace :=
  { warned := p.distribution != .executable
    executableSpawned := true }

/-! ## Artifact propagation (Project::get_artifacts and
Project::copy_artifacts_to_build_directory, src/project.rs lines 694-729;
the same logic appears as Build::collect_artifacts and
Build::copy_artifacts_to_build_directory in src/task/build.rs). -/

/-- The dynamic-library artifact path a project pushes for itself:
base_path.join(BAKERY_BUILD_DIRECTORY).join("{name}.{so}"). -/
def artifactPath (p : Project) : String :=
  p.basePath ++ "/" ++ BAKERY_BUILD_DIRECTORY ++ "/" ++ p.name ++ "." ++
    DYNAMIC_LIBRARY_EXTENSION

mutual

/-- Project::get_artifacts (src/project.rs lines 711-729): the project's own
dynamic-library artifact first (when it is one), then, recursively, the
artifacts of every Project-kind dependency in order. -/
def getArtifacts : Project → List String
  | .mk basePath name _ dist _ _ deps _ _ _ _ _ =>
    (if dist = .dynamicLibrary then
      [basePath ++ "/" ++ BAKERY_BUILD_DIRECTORY ++ "/" ++ name ++ "." ++
        DYNAMIC_LIBRARY_EXTENSION]
    else
      []) ++ getArtifactsOfDeps deps

/-- The loop over dependencies inside Project::get_artifacts. -/
def getArtifactsOfDeps : List Dependency → List String
  | [] => []
  | .system _ :: rest => getArtifactsOfDeps rest
  | .project p :: rest => getArtifacts p ++ getArtifactsOfDeps rest

end

/-- Split a character list on a separator; always returns at least one
(possibly empty) group. -/
def splitChar (sep : Char) : List Char → List (List Char)
  | [] => [[]]
  | c :: rest =>
    let groups := splitChar sep rest
    if c = sep then
      [] :: groups
    else
      match groups with
      | [] => [[c]]
      | g :: gs => (c :: g) :: gs

/-- Join character groups with a separator. -/
def joinChar (sep : Char) : List (List Char) → List Char
  | [] => []
  | [g] => g
  | g :: gs => g ++ sep :: joinChar sep gs

/-- Last element of a list, with a default. -/
def lastD (default : List Char) : List (List Char) → List Char
  | [] => default
  | [g] => g
  | _ :: g :: gs => lastD default (g :: gs)

/-- file_name(): the last path component. -/
def fileNameOf (path : String) : String :=
  String.mk (lastD path.data (splitChar '/' path.data))

/-- Project::copy_artifacts_to_build_directory (src/project.rs lines
694-709): enumerate the collected artifacts; skip index 0 when this project
is itself a DynamicLibrary; copy every remaining artifact into this
project's build directory under its file name. The returned list is the
(source, destination) pair of every fs::copy performed, in order. -/
def copiedArtifacts (p : Project) : List (String × String) :=
  ((getArtifacts p).enum.filter
    (fun ia => !(ia.1 == 0 && p.distribution == Distribution.dynamicLibrary))).map
    (fun ia =>
      (ia.2, p.basePath ++ "/" ++ BAKERY_BUILD_DIRECTORY ++ "/" ++ fileNameOf ia.2))

mutual

/-- All projects of the dependency tree in preorder (the project itself
first, then the subtrees of its Project-kind dependencies in order). -/
def subtreeProjects : Project → List Project
  | .mk b n l dist s i deps o w1 w2 h hs =>
    Project.mk b n l dist s i deps o w1 w2 h hs :: subtreeProjectsOfDeps deps

/-- Preorder traversal of a dependency list. -/
def subtreeProjectsOfDeps : List Dependency → List Project
  | [] => []
  | .system _ :: rest => subtreeProjectsOfDeps rest
  | .project p :: rest => subtreeProjects p ++ subtreeProjectsOfDeps rest

end

/-- The artifact list as worded by the specification: every DynamicLibrary
artifact anywhere in the dependency subtree, the project's own one first. -/
def specDynamicArtifacts (p : Project) : List String :=
  ((subtreeProjects p).filter
    (fun q => q.distribution == Distribution.dynamicLibrary)).map artifactPath

/-! ## One build round of a dependency-free project (Build::on_execute and
Build::build, src/task/build.rs lines 562-648 and 283-501), used for the
idempotence claim. All toolchain invocations are assumed to succeed, i.e.
this models a successful build. -/

/-- The object-file name of a source:
PathBuf::from(source).file_name() with the extension replaced by "o"
(src/project.rs lines 668-672). -/
def objectFileName (source : String) : String :=
  let base := (fileNameOf source).data
  match (splitChar '.' base).dropLast with
  | [] => String.mk (base ++ '.' :: OBJECT_FILE_EXTENSION.data)
  | parts => String.mk (joinChar '.' parts ++ '.' :: OBJECT_FILE_EXTENSION.data)

/-- The on-disk state a build round reads and writes: the persisted hashes
file (as a key/digest map), which object files exist in the build
directory, the current content digest of every source (sources are assumed
readable), and the current digest of the configuration file. -/
structure FsState where
  cache : String → Option Nat
  objects : String → Bool
  sourceHash : String → Nat
  configHash : Nat

/-- The SourceState the staleness filter sees for one source. -/
def sourceStateOf (st : FsState) (source : String) : SourceState :=
  { cachedHash := st.cache source
    objectFileExists := st.objects (objectFileName source)
    currentHash := some (st.sourceHash source) }

/-- The stale-source selection of a build round. -/
def staleSources (sources : List String) (st : FsState) : List String :=
  getSourcesToCompile (hasProjectConfigurationChanged st.cache st.configHash)
    sources (sourceStateOf st)

/-- One successful build of a dependency-free project: if the stale set is
empty the round is a silent no-op ("Nothing to build", src/task/build.rs
lines 600-606); otherwise every stale source is compiled (its object file
appears) and the hashes file is rewritten wholesale with the configuration
digest plus the digests of the sources compiled in THIS round only
(src/task/build.rs lines 299-308 and 396-405; a compiled source named like
the configuration file would shadow its entry via HashMap::extend).
Returns the new state and the number of compiler invocations. -/
def buildRound (sources : List String) (st : FsState) : FsState × Nat :=
  let stale := staleSources sources st
  if stale.isEmpty then
    (st, 0)
  else
    ({ st with
        cache := fun k =>
          if stale.contains k then some (st.sourceHash k)
          else if k = BUILD_CONFIGURATION_FILE then some st.configHash
          else none
        objects := fun k => st.objects k || stale.any (fun s => objectFileName s == k) },
      stale.length)

/-! ## Concrete instances used as counterexamples and witnesses. -/

/-- A glob oracle under which every pattern expands to no entries. -/
def noGlob : String → Option (List (Option String)) := fun _ => some []

/-- A minimal parsed configuration with the given name, distribution and
dependency list, no sources and no includes. -/
def simpleConfig (name : String) (distribution : Distribution)
    (dependencies : List RawDependency) : RawConfig :=
  { name := name
    language := .c
    distribution := distribution
    sources := []
    includes := []
    dependencies := dependencies
    optimization := .zero
    enableAllWarnings := false
    treatAllWarningsAsErrors := false }

/-- A leaf directory (no hashes file, no nested directories). -/
def leafDir (basePath : String) (config : ConfigFileState)
    (hashesFile : HashesFileState) : ProjectDir :=
  .mk basePath config hashesFile noGlob (fun _ => false) (fun _ => false)
    (fun _ => none)

/-- The directory of a valid project named "dep" whose distribution is
Executable. -/
def executableDepDir : ProjectDir :=
  leafDir "./dep" (.parsed (simpleConfig "dep" .executable []) 11) .missing

/-- The directory of a valid project named "app" declaring the executable
project above as a Local dependency. -/
def appWithExecutableDepDir : ProjectDir :=
  .mk "." (.parsed (simpleConfig "app" .executable [.localDep "dep"]) 7)
    .missing noGlob (fun _ => false) (fun _ => false)
    (fun p => if p = "dep" then some executableDepDir else none)

/-- The resolved project produced by opening `executableDepDir`. -/
def executableDepProject : Project :=
  .mk "./dep" "dep" .c .executable [] [] [] .zero false false false []

/-- The resolved project produced by opening `appWithExecutableDepDir`. -/
def appWithExecutableDepProject : Project :=
  .mk "." "app" .c .executable [] [] [.project executableDepProject] .zero
    false false false []

/-- A directory whose project name is "9ab": it does not match the whole
pattern [a-zA-Z][a-zA-Z0-9]+ but contains the substring "ab". -/
def badNameDir : ProjectDir :=
  leafDir "." (.parsed (simpleConfig "9ab" .executable []) 7) .missing

/-- The resolved project produced by opening `badNameDir`. -/
def badNameProject : Project :=
  .mk "." "9ab" .c .executable [] [] [] .zero false false false []

/-- A directory whose project name is "!!", containing no letter-alnum pair. -/
def invalidNameDir : ProjectDir :=
  leafDir "." (.parsed (simpleConfig "!!" .executable []) 7) .missing

/-- A directory whose hashes file is present but not valid JSON for a
string-to-string map. -/
def unparsableHashesDir : ProjectDir :=
  leafDir "." (.parsed (simpleConfig "app" .executable []) 7) .unparsable

/-- The resolved project produced by opening `unparsableHashesDir`: the
broken cache is tolerated and treated as empty. -/
def unparsableHashesProject : Project :=
  .mk "." "app" .c .executable [] [] [] .zero false false false []

/-- A directory whose hashes file parses as a string map but holds a value
that is not a valid hex digest. -/
def badHexHashesDir : ProjectDir :=
  leafDir "." (.parsed (simpleConfig "app" .executable []) 7)
    (.parsed [("main.c", "zz")])

/-- Filesystem state of a two-source project whose persisted cache is fully
populated and current except that source "a.c" was edited (cached digest 1,
current digest 5); "b.c" is up to date (digest 2) and both object files
exist; the configuration digest 7 matches its cached entry. -/
def twoSourceState : FsState :=
  { cache := fun k =>
      if k = "bakery.toml" then some 7
      else if k = "a.c" then some 1
      else if k = "b.c" then some 2
      else none
    objects := fun k => k == "a.o" || k == "b.o"
    sourceHash := fun k => if k = "a.c" then 5 else 2
    configHash := 7 }

/-- Filesystem state of a project that has never been built: no cache file,
no object files. -/
def freshState : FsState :=
  { cache := fun _ => none
    objects := fun _ => false
    sourceHash := fun _ => 3
    configHash := 7 }

/-- A DynamicLibrary project with no Project-kind dependencies (one system
dependency, which contributes no artifacts). -/
def soloDynamicLibrary : Project :=
  .mk "lib" "mylib" .c .dynamicLibrary ["lib.c"] [] [.system "m"] .zero
    false false false []

/-- A StaticLibrary project, used to exercise the run task on a
non-executable distribution. -/
def staticLibraryProject : Project :=
  .mk "lib" "mylib" .c .staticLibrary [] [] [] .zero false false false []

/-- A run environment in which the build and the spawn would both succeed. -/
def okRunEnv : RunEnv :=
  { buildResult := .ok ()
    spawnStatus := .ok () }

/-- A compile environment in which "bad.c" fails to compile with diagnostic
"boom" and every other source compiles and digests to 9; the configuration
file re-hashes to 7. -/
def oneFailureEnv : CompileEnv :=
  { compile := fun s => if s = "bad.c" then some "boom" else none
    openSourceFile := fun _ => .ok ()
    hashSourceFile := fun _ => .ok 9
    rehashConfig := .ok 7
    finalize := none }

/-! ## Helper lemmas. -/

theorem bne_symm_nat (a b : Nat) : (a != b) = (b != a) := by
  by_cases h : a = b
  · subst h; rfl
  · rw [bne_iff_ne.mpr h, bne_iff_ne.mpr (Ne.symm h)]

theorem isStale_eq_specStaleSource (st : SourceState) :
    isStale st = specStaleSource st := by
  rcases st with ⟨ch, obj, cur⟩
  cases ch <;> cases cur <;> cases obj <;>
    simp [isStale, specStaleSource] <;>
    exact bne_symm_nat _ _

theorem optionTraverse_eq_none_of_mem (f : β → Option γ) :
    ∀ (l : List β) (b : β), b ∈ l → f b = none → optionTraverse f l = none := by
  intro l
  induction l with
  | nil => intro b hb; simp at hb
  | cons x xs ih =>
    intro b hb hfb
    rcases List.mem_cons.mp hb with hbx | hbxs
    · subst hbx
      simp [optionTraverse, hfb]
    · unfold optionTraverse
      cases hfx : f x with
      | none => rfl
      | some y => rw [ih b hbxs hfb]

/-! ## Claim C1: stale-source selection. -/

/-- C1: for a project whose configuration digest is unchanged, the
stale-source selection returns exactly the sources for which no cached
digest exists, or the object file is absent, or the current content digest
differs from the cached one; when the configuration changed it returns all
sources. -/
theorem claim_C1_stale_source_selection :
    ∀ (sources : List String) (fs : String → SourceState),
      getSourcesToCompile true sources fs = sources ∧
      getSourcesToCompile false sources fs =
        sources.filter (fun s => specStaleSource (fs s)) := by
  intro sources fs
  refine ⟨rfl, ?_⟩
  show sources.filter (fun s => isStale (fs s)) = _
  exact List.filter_congr (fun x _ => isStale_eq_specStaleSource (fs x))

/-! ## Claim C5: the configuration-change flag. -/

/-- C5 counterexample: with an empty persisted cache no digest for the
configuration file exists, yet the derived flag is false (the claim says it
should be true in that case). -/
theorem claim_C5_counterexample :
    (fun _ => (none : Option Nat)) BUILD_CONFIGURATION_FILE = none ∧
    hasProjectConfigurationChanged (fun _ => none) 42 = false :=
  ⟨rfl, rfl⟩

/-- C5 amended: the flag is true exactly when a persisted digest of the
configuration file EXISTS and differs from the current digest; an absent
persisted digest yields false (unwrap_or_default on bool). -/
theorem claim_C5_amended :
    ∀ (lookup : String → Option Nat) (current : Nat),
      hasProjectConfigurationChanged lookup current = true ↔
        ∃ old, lookup BUILD_CONFIGURATION_FILE = some old ∧ old ≠ current := by
  intro lookup current
  unfold hasProjectConfigurationChanged
  cases h : lookup BUILD_CONFIGURATION_FILE with
  | none => simp
  | some old => simp [bne_iff_ne]

/-! ## Claim C4: the library-only dependency invariant. -/

/-- C4 (code bug): opening a project that declares a Local dependency whose
distribution is Executable SUCCEEDS - src/project.rs performs no
distribution check during graph resolution and its error enums have no
dependency-is-not-a-library variant (even though src/main.rs line 79
matches on one); the only check in the sources is the build-time
DependencyMustBeLibrary test in the legacy Project::build_dependencies. -/
theorem claim_C4_open_accepts_executable_dependency :
    openFuel 2 appWithExecutableDepDir = .ok appWithExecutableDepProject ∧
    (appWithExecutableDepProject.dependencies.any (fun d =>
      match d with
      | .project q => q.distribution == Distribution.executable
      | .system _ => false)) = true :=
  ⟨rfl, rfl⟩

/-! ## Claim C8: running a non-executable project. -/

/-- C8 (code bug): the live run task (Run::on_execute) only warns about a
non-executable distribution and still spawns the artifact path - the early
return is missing - whereas the legacy, unreachable Project::run implements
the claimed behavior: CannotRunNonExecutable with no build and no spawn. -/
theorem claim_C8_run_divergence :
    (runOnExecute staticLibraryProject).warned = true ∧
    (runOnExecute staticLibraryProject).executableSpawned = true ∧
    projectRun okRunEnv staticLibraryProject =
      ⟨false, false, .error .cannotRunNonExecutable⟩ :=
  ⟨rfl, rfl, rfl⟩

/-! ## Claim C10: tolerance and panic while loading the hashes file. -/

/-- C10: a hashes file that is not valid JSON for a string map is tolerated
and treated as an empty cache (as is a missing file), but a parsed string
map containing any value that is not a valid hex digest makes open panic
(Hash::from_hex(value).unwrap()). -/
theorem claim_C10_hashes_file_tolerance_and_panic :
    loadHashes .missing = some [] ∧
    loadHashes .unparsable = some [] ∧
    (∀ (entries : List (String × String)) (k v : String),
      (k, v) ∈ entries → hexDecode v = none →
      loadHashes (.parsed entries) = none) ∧
    openFuel 1 unparsableHashesDir = .ok unparsableHashesProject ∧
    openFuel 1 badHexHashesDir = .panic := by
  refine ⟨rfl, rfl, ?_, rfl, rfl⟩
  intro entries k v hmem hv
  unfold loadHashes
  exact optionTraverse_eq_none_of_mem _ entries (k, v) hmem (by simp [hv])

/-- C10 witness: the concrete map {"main.c": "zz"} has a non-hex digest
value and makes the loader panic. -/
theorem claim_C10_witness :
    loadHashes (.parsed [("main.c", "zz")]) = none :=
  claim_C10_hashes_file_tolerance_and_panic.2.2.1 [("main.c", "zz")]
    "main.c" "zz" (by simp) (by decide)

/-! ## Claim C3: partial-failure aggregation in the compilation batch. -/

theorem foldSources_go (env : CompileEnv) :
    ∀ (sources : List String) (acc : List (String × Nat) × List SourceFileBuildError),
      sources.foldl
        (fun acc source =>
          match compileOne env source with
          | .ok h => (acc.1 ++ [(source, h)], acc.2)
          | .error e => (acc.1, acc.2 ++ [e])) acc =
      (acc.1 ++ sources.filterMap (compileHashOf env),
        acc.2 ++ sources.filterMap (compileErrOf env)) := by
  intro sources
  induction sources with
  | nil => intro acc; simp
  | cons s ss ih =>
    intro acc
    simp only [List.foldl_cons, List.filterMap_cons]
    cases h : compileOne env s with
    | ok v =>
      rw [ih]
      simp [compileHashOf, compileErrOf, h]
    | error e =>
      rw [ih]
      simp [compileHashOf, compileErrOf, h]

theorem foldSources_eq (env : CompileEnv) (sources : List String) :
    foldSources env sources =
      (sources.filterMap (compileHashOf env),
        sources.filterMap (compileErrOf env)) := by
  unfold foldSources
  rw [foldSources_go]
  simp

theorem length_filterMap_eq_length_filter (f : β → Option γ) :
    ∀ l : List β,
      (l.filterMap f).length = (l.filter (fun b => (f b).isSome)).length := by
  intro l
  induction l with
  | nil => rfl
  | cons x xs ih =>
    cases h : f x with
    | none => simpa [List.filterMap_cons, List.filter_cons, h] using ih
    | some y => simpa [List.filterMap_cons, List.filter_cons, h] using ih

/-- C3: in a compilation batch, every source is attempted independently
(the fold collects, over ALL sources, one hash entry per succeeding source
and exactly one error entry per failing source); when at least one source
fails, the build fails with the aggregated CompilationError and the hashes
file is not written. -/
theorem claim_C3_partial_failure_aggregation :
    ∀ (env : CompileEnv) (distribution : Distribution) (sources : List String)
      (configHash : Nat),
      env.rehashConfig = .ok configHash →
      foldSources env sources =
        (sources.filterMap (compileHashOf env),
          sources.filterMap (compileErrOf env)) ∧
      (sources.filterMap (compileErrOf env)).length =
        (sources.filter (fun s => (compileErrOf env s).isSome)).length ∧
      (sources.filterMap (compileErrOf env) ≠ [] →
        buildSourceCode env distribution sources =
          ⟨.error (.compilationError (sources.filterMap (compileErrOf env))),
            none⟩) := by
  intro env distribution sources configHash hcfg
  refine ⟨foldSources_eq env sources, length_filterMap_eq_length_filter _ sources, ?_⟩
  intro hne
  unfold buildSourceCode
  rw [hcfg, foldSources_eq]
  simp [hne]

/-- C3 witness: with two sources of which exactly "bad.c" fails (diagnostic
"boom"), the batch fails with a single aggregated entry and no cache write. -/
theorem claim_C3_witness :
    oneFailureEnv.rehashConfig = .ok 7 ∧
    buildSourceCode oneFailureEnv .executable ["good.c", "bad.c"] =
      ⟨.error (.compilationError [.failedToCompile "boom"]), none⟩ := by
  refine ⟨rfl, ?_⟩
  have h := (claim_C3_partial_failure_aggregation oneFailureEnv .executable
    ["good.c", "bad.c"] 7 rfl).2.2 (by decide)
  have e : (["good.c", "bad.c"].filterMap (compileErrOf oneFailureEnv)) =
      [.failedToCompile "boom"] := rfl
  rw [e] at h
  exact h

/-! ## Claim C7: project-name validation. -/

theorem exceptMap_error_mem (f : β → Except ε γ) :
    ∀ (l : List β) (e : ε), exceptMap f l = .error e → ∃ b ∈ l, f b = .error e := by
  intro l
  induction l with
  | nil => intro e h; simp [exceptMap] at h
  | cons x xs ih =>
    intro e h
    unfold exceptMap at h
    cases hx : f x with
    | error e0 =>
      rw [hx] at h
      injection h with he
      exact ⟨x, List.mem_cons_self x xs, by rw [hx, he]⟩
    | ok y =>
      rw [hx] at h
      cases hrest : exceptMap f xs with
      | error e0 =>
        rw [hrest] at h
        injection h with he
        obtain ⟨b, hb, hfb⟩ := ih e0 hrest
        exact ⟨b, List.mem_cons_of_mem x hb, by rw [hfb, he]⟩
      | ok ys => rw [hrest] at h; cases h

theorem expandPattern_error (pattern : String)
    (x : Option (List (Option String))) (e : ProjectOpenError)
    (h : expandPattern pattern x = .error e) :
    e = .invalidBuildConfiguration (.incorrectWildcard pattern) ∨
      e = .invalidBuildConfiguration (.incorrectSource pattern) := by
  cases x with
  | none =>
    unfold expandPattern at h
    injection h with he
    exact Or.inl he.symm
  | some entries =>
    unfold expandPattern at h
    obtain ⟨b, _, hfb⟩ := exceptMap_error_mem _ entries e h
    cases b with
    | none => injection hfb with he; exact Or.inr he.symm
    | some path => cases hfb

theorem resolveSources_error_shape (glob : String → Option (List (Option String)))
    (sourceOk : String → Bool) (patterns : List String) (e : ProjectOpenError)
    (h : resolveSources glob sourceOk patterns = .error e) :
    (∃ p, e = .invalidBuildConfiguration (.incorrectWildcard p)) ∨
      (∃ s, e = .invalidBuildConfiguration (.incorrectSource s)) := by
  unfold resolveSources at h
  cases h1 : exceptMap (fun pat => expandPattern pat (glob pat)) patterns with
  | error e0 =>
    rw [h1] at h
    injection h with he
    subst he
    obtain ⟨pat, _, hfb⟩ := exceptMap_error_mem _ patterns e0 h1
    rcases expandPattern_error pat (glob pat) e0 hfb with h2 | h2
    · exact Or.inl ⟨pat, h2⟩
    · exact Or.inr ⟨pat, h2⟩
  | ok expanded =>
    rw [h1] at h
    obtain ⟨source, _, hfb⟩ := exceptMap_error_mem _ expanded.flatten e h
    by_cases hok : sourceOk source
    · simp [hok] at hfb
    · simp [hok] at hfb
      exact Or.inr ⟨source, hfb.symm⟩

theorem resolveIncludes_error_shape (includeOk : String → Bool)
    (own : List String) (deps : List Dependency) (e : ProjectOpenError)
    (h : resolveIncludes includeOk own deps = .error e) :
    ∃ s, e = .invalidBuildConfiguration (.incorrectInclude s) := by
  unfold resolveIncludes at h
  obtain ⟨inc, _, hfb⟩ := exceptMap_error_mem _ _ e h
  by_cases hok : includeOk inc
  · simp [hok] at hfb
  · simp [hok] at hfb
    exact ⟨inc, hfb.symm⟩

theorem collectDeps_all_ok :
    ∀ (rs : List DepResolution), (∀ r ∈ rs, ∃ d, r = .ok d) →
      ∃ ds, collectDeps rs = .ok ds := by
  intro rs
  induction rs with
  | nil => intro _; exact ⟨[], rfl⟩
  | cons r rest ih =>
    intro hall
    obtain ⟨d, hd⟩ := hall r (List.mem_cons_self r rest)
    subst hd
    obtain ⟨ds, hds⟩ := ih (fun r hr => hall r (List.mem_cons_of_mem _ hr))
    exact ⟨d :: ds, by unfold collectDeps; rw [hds]⟩

/-- C7 counterexample: the name "9ab" does not match the whole pattern
[a-zA-Z][a-zA-Z0-9]+, yet open succeeds (no InvalidName error), because
Regex::is_match searches for the pattern anywhere in the name and "9ab"
contains the matching substring "ab". -/
theorem claim_C7_counterexample :
    specNameFullMatch "9ab" = false ∧
    nameCheckPasses "9ab" = true ∧
    openFuel 1 badNameDir = .ok badNameProject :=
  ⟨rfl, rfl, rfl⟩

/-- C7 amended: open fails with InvalidName exactly when the project's own
name contains NO letter immediately followed by a letter-or-digit (the
regex check is an unanchored substring search); every name that fully
matches the pattern passes. (The iff is stated for projects without Local
dependencies, since a nested open propagates a dependency's InvalidName
unchanged.) -/
theorem claim_C7_amended :
    (∀ (d : ProjectDir) (config : RawConfig) (configHash fuel : Nat),
      d.config = .parsed config configHash →
      (∀ path, RawDependency.localDep path ∉ config.dependencies) →
      (openFuel (fuel + 1) d =
          .err (.invalidBuildConfiguration .invalidName) ↔
        nameCheckPasses config.name = false)) ∧
    (∀ name, specNameFullMatch name = true → nameCheckPasses name = true) := by
  constructor
  · intro d config configHash fuel hconf hnolocal
    constructor
    · intro h
      by_contra hpass
      have hpass' : nameCheckPasses config.name = true := by
        cases hp : nameCheckPasses config.name with
        | false => exact absurd hp hpass
        | true => rfl
      unfold openFuel at h
      rw [hconf] at h
      simp only [hpass', Bool.not_true, Bool.false_eq_true, if_false] at h
      cases hlh : loadHashes d.hashesFile with
      | none => rw [hlh] at h; cases h
      | some hashes =>
        rw [hlh] at h
        simp only at h
        have hall : ∀ r ∈ config.dependencies.map (fun rd =>
            match rd with
            | RawDependency.system n => DepResolution.ok (.system n)
            | RawDependency.localDep path =>
              match d.subdir path with
              | none => DepResolution.err .invalidProjectPath
              | some sub =>
                match openFuel fuel sub with
                | .ok p => .ok (.project p)
                | .panic => .panic
                | .fuelOut => .fuelOut
                | .err e => .err e), ∃ dep, r = .ok dep := by
          intro r hr
          obtain ⟨rd, hrd, hr⟩ := List.mem_map.mp hr
          cases rd with
          | system n => exact ⟨.system n, hr.symm⟩
          | localDep path => exact absurd hrd (hnolocal path)
        obtain ⟨ds, hds⟩ := collectDeps_all_ok _ hall
        rw [hds] at h
        simp only at h
        cases hsrc : resolveSources d.glob d.sourceOk config.sources with
        | error e =>
          rw [hsrc] at h
          simp only at h
          injection h with he
          rcases resolveSources_error_shape _ _ _ e hsrc with ⟨p, hp⟩ | ⟨s, hs⟩
          · rw [hp] at he; cases he
          · rw [hs] at he; cases he
        | ok sources =>
          rw [hsrc] at h
          simp only at h
          cases hinc : resolveIncludes d.includeOk config.includes ds with
          | error e =>
            rw [hinc] at h
            simp only at h
            injection h with he
            obtain ⟨s, hs⟩ := resolveIncludes_error_shape _ _ _ e hinc
            rw [hs] at he
            cases he
          | ok includes =>
            rw [hinc] at h
            simp only at h
            cases h
    · intro hfail
      unfold openFuel
      rw [hconf]
      simp [hfail]
  · intro name h
    unfold specNameFullMatch at h
    unfold nameCheckPasses
    cases hdata : name.data with
    | nil => rw [hdata] at h; cases h
    | cons c rest =>
      rw [hdata] at h
      cases rest with
      | nil => simp at h
      | cons c2 rest2 =>
        simp only [List.all_cons, Bool.and_eq_true] at h
        obtain ⟨⟨hc, _⟩, hc2, _⟩ := h
        unfold containsNamePair
        simp [hc, hc2]

/-- C7 witness: a project named "!!" (no letter-alnum pair anywhere) fails
to open with InvalidName. -/
theorem claim_C7_witness :
    openFuel 1 invalidNameDir = .err (.invalidBuildConfiguration .invalidName) := by
  have h := claim_C7_amended.1 invalidNameDir (simpleConfig "!!" .executable [])
    7 0 rfl (by intro path hmem; simp [simpleConfig] at hmem)
  exact h.mpr (by decide)

/-! ## Claim C9: artifact propagation. -/

theorem getArtifacts_unfold (p : Project) :
    getArtifacts p =
      (if p.distribution = Distribution.dynamicLibrary then [artifactPath p]
       else []) ++ getArtifactsOfDeps p.dependencies := by
  cases p
  rfl

mutual

theorem getArtifacts_eq_spec : ∀ p : Project,
    getArtifacts p = specDynamicArtifacts p
  | .mk b n l dist s i deps o w1 w2 h hs => by
    rw [getArtifacts_unfold]
    simp only [Project.distribution, Project.dependencies]
    rw [getArtifactsOfDeps_eq_spec deps]
    unfold specDynamicArtifacts subtreeProjects
    cases dist <;>
      simp [artifactPath, Project.distribution, Project.basePath, Project.name,
        Project.dependencies, List.filter_cons]

theorem getArtifactsOfDeps_eq_spec : ∀ ds : List Dependency,
    getArtifactsOfDeps ds =
      ((subtreeProjectsOfDeps ds).filter
        (fun q => q.distribution == Distribution.dynamicLibrary)).map artifactPath
  | [] => rfl
  | .system n :: rest => by
    show getArtifactsOfDeps rest = _
    rw [getArtifactsOfDeps_eq_spec rest]
    rfl
  | .project p :: rest => by
    show getArtifacts p ++ getArtifactsOfDeps rest = _
    rw [getArtifacts_eq_spec p, getArtifactsOfDeps_eq_spec rest]
    unfold specDynamicArtifacts
    show _ = ((subtreeProjects p ++ subtreeProjectsOfDeps rest).filter _).map _
    rw [List.filter_append, List.map_append]

end

theorem filter_enumFrom_nonzero (dyn : Bool) :
    ∀ (l : List β) (n : Nat), n ≠ 0 →
      (List.enumFrom n l).filter (fun ia => !(ia.1 == 0 && dyn)) =
        List.enumFrom n l := by
  intro l n hn
  apply List.filter_eq_self.mpr
  intro a ha
  obtain ⟨i, x⟩ := a
  have h1 := (List.mem_enumFrom ha).1
  have h0 : (i == 0) = false := by
    apply beq_eq_false_iff_ne.mpr
    intro hi
    exact hn (Nat.le_zero.mp (hi ▸ h1))
  simp [h0]

theorem map_snd_enumFrom (g : β → γ) (n : Nat) (l : List β) :
    (List.enumFrom n l).map (fun ia => g ia.2) = l.map g := by
  have h : (fun ia : Nat × β => g ia.2) = g ∘ Prod.snd := rfl
  rw [h, ← List.map_map, List.enumFrom_map_snd]

theorem map_snd_enum (g : β → γ) (l : List β) :
    l.enum.map (fun ia => g ia.2) = l.map g := by
  have h : (fun ia : Nat × β => g ia.2) = g ∘ Prod.snd := rfl
  rw [h, ← List.map_map, List.enum_map_snd]

theorem enum_filter_skip_head (l : List β) (dyn : Bool) (g : β → γ) :
    ((l.enum.filter (fun ia => !(ia.1 == 0 && dyn))).map (fun ia => g ia.2)) =
      (if dyn then l.drop 1 else l).map g := by
  cases dyn with
  | false =>
    have hp : List.filter (fun ia : Nat × β => !(ia.1 == 0 && false)) l.enum =
        l.enum := by
      apply List.filter_eq_self.mpr
      intro a _
      simp
    rw [hp]
    simp only [Bool.false_eq_true, if_false]
    exact map_snd_enum g l
  | true =>
    cases l with
    | nil => rfl
    | cons x t =>
      simp only [List.enum_cons, List.filter_cons]
      have h0 : (!((0, x).1 == 0 && true)) = false := by simp
      rw [h0]
      simp only [Bool.false_eq_true, if_false]
      rw [filter_enumFrom_nonzero true t 1 one_ne_zero, map_snd_enumFrom]
      simp

theorem getArtifactsOfDeps_nil_of_no_projects :
    ∀ ds : List Dependency, (∀ q, Dependency.project q ∉ ds) →
      getArtifactsOfDeps ds = [] := by
  intro ds
  induction ds with
  | nil => intro _; rfl
  | cons d rest ih =>
    intro hno
    cases d with
    | system n =>
      show getArtifactsOfDeps rest = []
      exact ih (fun q hq => hno q (List.mem_cons_of_mem _ hq))
    | project p => exact absurd (List.mem_cons_self _ rest) (hno p)

/-- C9: artifact propagation collects exactly the DynamicLibrary artifacts of
the dependency subtree in preorder (the project's own first when it is one)
and copies each into the project's build output directory, except the first
collected entry when the project itself is a DynamicLibrary; in particular a
DynamicLibrary project with no Project-kind dependencies performs zero
copies. -/
theorem claim_C9_artifact_propagation :
    ∀ p : Project,
      getArtifacts p = specDynamicArtifacts p ∧
      copiedArtifacts p =
        (if p.distribution = Distribution.dynamicLibrary then
          (getArtifacts p).drop 1
         else getArtifacts p).map
          (fun a => (a, p.basePath ++ "/" ++ BAKERY_BUILD_DIRECTORY ++ "/" ++
            fileNameOf a)) ∧
      (p.distribution = Distribution.dynamicLibrary →
        (∀ q, Dependency.project q ∉ p.dependencies) →
        copiedArtifacts p = []) := by
  intro p
  have h2 : copiedArtifacts p =
      (if p.distribution = Distribution.dynamicLibrary then
        (getArtifacts p).drop 1
       else getArtifacts p).map
        (fun a => (a, p.basePath ++ "/" ++ BAKERY_BUILD_DIRECTORY ++ "/" ++
          fileNameOf a)) := by
    unfold copiedArtifacts
    have h := enum_filter_skip_head (getArtifacts p)
      (p.distribution == Distribution.dynamicLibrary)
      (fun a => (a, p.basePath ++ "/" ++ BAKERY_BUILD_DIRECTORY ++ "/" ++
        fileNameOf a))
    by_cases hdyn : p.distribution = Distribution.dynamicLibrary
    · simp only [hdyn, beq_self_eq_true, if_true] at h ⊢
      exact h
    · have hbeq : (p.distribution == Distribution.dynamicLibrary) = false := by
        cases hb : p.distribution == Distribution.dynamicLibrary with
        | false => rfl
        | true => exact absurd (beq_iff_eq.mp hb) hdyn
      rw [hbeq] at h
      rw [hbeq]
      simp only [Bool.false_eq_true, if_false] at h
      rw [if_neg hdyn]
      exact h
  refine ⟨getArtifacts_eq_spec p, h2, ?_⟩
  intro hdyn hnodeps
  rw [h2, if_pos hdyn, getArtifacts_unfold, if_pos hdyn,
    getArtifactsOfDeps_nil_of_no_projects p.dependencies hnodeps]
  rfl

/-- C9 witness: a DynamicLibrary project with no Project-kind dependencies
performs zero copies during artifact propagation. -/
theorem claim_C9_witness :
    soloDynamicLibrary.distribution = Distribution.dynamicLibrary ∧
    copiedArtifacts soloDynamicLibrary = [] := by
  refine ⟨rfl, ?_⟩
  exact (claim_C9_artifact_propagation soloDynamicLibrary).2.2 rfl
    (by
      intro q hq
      simp [soloDynamicLibrary, Project.dependencies] at hq)

/-! ## Claim C6: idempotence of build. -/

theorem buildRound_of_empty (sources : List String) (st : FsState)
    (h : staleSources sources st = []) : buildRound sources st = (st, 0) := by
  unfold buildRound
  simp [h]

theorem buildRound_of_nonempty (sources : List String) (st : FsState)
    (h : (staleSources sources st).isEmpty = false) :
    buildRound sources st =
      (FsState.mk
        (fun k =>
          if (staleSources sources st).contains k then some (st.sourceHash k)
          else if k = BUILD_CONFIGURATION_FILE then some st.configHash
          else none)
        (fun k =>
          st.objects k ||
            (staleSources sources st).any (fun s => objectFileName s == k))
        st.sourceHash st.configHash,
        (staleSources sources st).length) := by
  unfold buildRound
  simp [h]

/-- C6 counterexample: starting from a fully-cached two-source project where
only "a.c" was edited, the first (successful, incremental) build compiles
exactly one source - but it rewrites the hashes file with only that source's
digest, dropping "b.c"'s entry, so the second build with no changes at all
still performs one compilation instead of zero. -/
theorem claim_C6_counterexample :
    (buildRound ["a.c", "b.c"] twoSourceState).2 = 1 ∧
    (buildRound ["a.c", "b.c"] (buildRound ["a.c", "b.c"] twoSourceState).1).2 = 1 :=
  ⟨by decide, by decide⟩

/-- C6 amended: a second build is a no-op (empty stale set, zero compiler
invocations) after a successful build that selected EVERY source for
compilation (or none at all) - e.g. a first-ever build or a full rebuild
after a configuration change; after a partial incremental build the rewritten
cache only holds the digests of the sources compiled in that run, so the
untouched sources become stale again. (The project's configuration file name
is assumed not to be among its sources.) -/
theorem claim_C6_amended :
    ∀ (sources : List String) (st : FsState),
      BUILD_CONFIGURATION_FILE ∉ sources →
      (staleSources sources st = sources ∨ staleSources sources st = []) →
      staleSources sources (buildRound sources st).1 = [] ∧
      (buildRound sources (buildRound sources st).1).2 = 0 := by
  intro sources st hcfg hall
  have main : staleSources sources (buildRound sources st).1 = [] := by
    rcases hall with hall | hempty
    · cases sources with
      | nil =>
        rw [buildRound_of_empty [] st hall]
        exact hall
      | cons s0 rest =>
        have hne : (staleSources (s0 :: rest) st).isEmpty = false := by
          rw [hall]
          rfl
        have hbr := buildRound_of_nonempty (s0 :: rest) st hne
        have hcache : ((buildRound (s0 :: rest) st).1).cache =
            fun k =>
              if (staleSources (s0 :: rest) st).contains k then
                some (st.sourceHash k)
              else if k = BUILD_CONFIGURATION_FILE then some st.configHash
              else none := by
          rw [hbr]
        have hobjects : ((buildRound (s0 :: rest) st).1).objects =
            fun k =>
              st.objects k ||
                (staleSources (s0 :: rest) st).any
                  (fun s => objectFileName s == k) := by
          rw [hbr]
        have hsrcH : ((buildRound (s0 :: rest) st).1).sourceHash =
            st.sourceHash := by
          rw [hbr]
        have hcfgH : ((buildRound (s0 :: rest) st).1).configHash =
            st.configHash := by
          rw [hbr]
        have hnm : BUILD_CONFIGURATION_FILE ∉ staleSources (s0 :: rest) st := by
          rw [hall]
          exact hcfg
        unfold staleSources
        rw [hcache, hcfgH]
        have hflag : hasProjectConfigurationChanged
            (fun k =>
              if (staleSources (s0 :: rest) st).contains k then
                some (st.sourceHash k)
              else if k = BUILD_CONFIGURATION_FILE then some st.configHash
              else none) st.configHash = false := by
          unfold hasProjectConfigurationChanged
          simp [hnm]
        rw [hflag]
        unfold getSourcesToCompile
        simp only [Bool.false_eq_true, if_false]
        apply List.filter_eq_nil_iff.mpr
        intro s hs
        have hmem : s ∈ staleSources (s0 :: rest) st := by
          rw [hall]
          exact hs
        have hany : (staleSources (s0 :: rest) st).any
            (fun x => objectFileName x == objectFileName s) = true := by
          rw [hall]
          exact List.any_eq_true.mpr ⟨s, hs, beq_self_eq_true _⟩
        have hstate : sourceStateOf ((buildRound (s0 :: rest) st).1) s =
            ⟨some (st.sourceHash s), true, some (st.sourceHash s)⟩ := by
          unfold sourceStateOf
          rw [hcache, hobjects, hsrcH]
          simp [hmem, hany]
        rw [hstate]
        simp [isStale]
    · rw [buildRound_of_empty sources st hempty]
      exact hempty
  exact ⟨main, by rw [buildRound_of_empty sources _ main]⟩

/-- C6 witness: a never-built two-source project selects all sources on the
first build; the second build then performs zero compilations. -/
theorem claim_C6_witness :
    staleSources ["a.c", "b.c"] freshState = ["a.c", "b.c"] ∧
    (buildRound ["a.c", "b.c"] (buildRound ["a.c", "b.c"] freshState).1).2 = 0 := by
  have h := claim_C6_amended ["a.c", "b.c"] freshState (by decide)
    (Or.inl (by decide))
  exact ⟨by decide, h.2⟩

/-! ## Claim C2: the dependency-ordered task scheduler.
Acyclicity of a finite task table is witnessed by a rank function that
strictly decreases along declared dependencies; all scheduler lemmas take
such a function as hypothesis. -/

section SchedulerProofs

variable {α : Type} [DecidableEq α]

theorem flatMap_congr_mem {β : Type} (l : List α) (f g : α → List β)
    (h : ∀ x ∈ l, f x = g x) : l.flatMap f = l.flatMap g := by
  induction l with
  | nil => rfl
  | cons x xs ih =>
    rw [List.flatMap_cons, List.flatMap_cons,
      h x (List.mem_cons_self x xs),
      ih (fun y hy => h y (List.mem_cons_of_mem x hy))]

theorem deps_nil_of_rank_zero (deps : α → List α) (rank : α → Nat)
    (hrank : ∀ t, ∀ d ∈ deps t, rank d < rank t) (t : α) (h : rank t = 0) :
    deps t = [] := by
  apply List.eq_nil_iff_forall_not_mem.mpr
  intro d hd
  have := hrank t d hd
  omega

theorem visitF_succ (deps : α → List α) (rank : α → Nat)
    (hrank : ∀ t, ∀ d ∈ deps t, rank d < rank t) :
    ∀ (n : Nat) (t : α), rank t ≤ n →
      visitF deps (n + 1) t = visitF deps n t := by
  intro n
  induction n with
  | zero =>
    intro t ht
    have h0 : rank t = 0 := Nat.le_zero.mp ht
    simp [visitF, deps_nil_of_rank_zero deps rank hrank t h0]
  | succ k ih =>
    intro t ht
    show ((deps t).flatMap (visitF deps (k + 1))) ++ [t] =
      ((deps t).flatMap (visitF deps k)) ++ [t]
    congr 1
    apply flatMap_congr_mem
    intro d hd
    exact ih d (Nat.lt_succ_iff.mp (Nat.lt_of_lt_of_le (hrank t d hd) ht))

theorem visitF_eq_visitAt (deps : α → List α) (rank : α → Nat)
    (hrank : ∀ t, ∀ d ∈ deps t, rank d < rank t) :
    ∀ (n : Nat) (t : α), rank t ≤ n →
      visitF deps n t = visitAt deps rank t := by
  intro n
  induction n with
  | zero =>
    intro t ht
    have h0 : rank t = 0 := Nat.le_zero.mp ht
    unfold visitAt
    rw [h0]
  | succ k ih =>
    intro t ht
    by_cases h : rank t = k + 1
    · unfold visitAt
      rw [h]
    · have hle : rank t ≤ k := Nat.lt_succ_iff.mp (Nat.lt_of_le_of_ne ht h)
      rw [visitF_succ deps rank hrank k t hle]
      exact ih t hle

theorem visitAt_unfold (deps : α → List α) (rank : α → Nat)
    (hrank : ∀ t, ∀ d ∈ deps t, rank d < rank t) (t : α) :
    visitAt deps rank t = (deps t).flatMap (visitAt deps rank) ++ [t] := by
  cases h : rank t with
  | zero =>
    unfold visitAt
    rw [h]
    simp [visitF, deps_nil_of_rank_zero deps rank hrank t h]
  | succ r =>
    unfold visitAt
    rw [h]
    show ((deps t).flatMap (visitF deps r)) ++ [t] = _
    congr 1
    apply flatMap_congr_mem
    intro d hd
    have hdr : rank d ≤ r := by
      have := hrank t d hd
      omega
    exact visitF_eq_visitAt deps rank hrank r d hdr

theorem visitAt_length_pos (deps : α → List α) (rank : α → Nat)
    (hrank : ∀ t, ∀ d ∈ deps t, rank d < rank t) (t : α) :
    0 < (visitAt deps rank t).length := by
  rw [visitAt_unfold deps rank hrank t]
  simp

theorem mem_visitAt_self (deps : α → List α) (rank : α → Nat)
    (hrank : ∀ t, ∀ d ∈ deps t, rank d < rank t) (t : α) :
    t ∈ visitAt deps rank t := by
  rw [visitAt_unfold deps rank hrank t]
  simp

theorem rank_le_of_reaches (deps : α → List α) (rank : α → Nat)
    (hrank : ∀ t, ∀ d ∈ deps t, rank d < rank t) :
    ∀ {a b : α}, Reaches deps a b → rank b ≤ rank a := by
  intro a b h
  induction h with
  | refl t => exact Nat.le_refl _
  | tail hd _ ih => exact Nat.le_trans ih (Nat.le_of_lt (hrank _ _ hd))

theorem mem_visitAt_iff_reaches (deps : α → List α) (rank : α → Nat)
    (hrank : ∀ t, ∀ d ∈ deps t, rank d < rank t) :
    ∀ (t u : α), u ∈ visitAt deps rank t ↔ Reaches deps t u := by
  have fwd : ∀ (r : Nat) (t : α), rank t ≤ r →
      ∀ u ∈ visitAt deps rank t, Reaches deps t u := by
    intro r
    induction r with
    | zero =>
      intro t ht u hu
      have h0 : rank t = 0 := Nat.le_zero.mp ht
      rw [visitAt_unfold deps rank hrank t,
        deps_nil_of_rank_zero deps rank hrank t h0] at hu
      simp at hu
      subst hu
      exact Reaches.refl _
    | succ r ih =>
      intro t ht u hu
      rw [visitAt_unfold deps rank hrank t] at hu
      rcases List.mem_append.mp hu with hB | hT
      · obtain ⟨d, hd, hud⟩ := List.mem_flatMap.mp hB
        have hdr : rank d ≤ r := by
          have := hrank t d hd
          omega
        exact Reaches.tail hd (ih d hdr u hud)
      · rw [List.mem_singleton.mp hT]
        exact Reaches.refl t
  intro t u
  constructor
  · exact fwd (rank t) t (Nat.le_refl _) u
  · intro h
    induction h with
    | refl t => exact mem_visitAt_self deps rank hrank t
    | tail hd _ ih =>
      rw [visitAt_unfold deps rank hrank _]
      exact List.mem_append_left _ (List.mem_flatMap.mpr ⟨_, hd, ih⟩)

theorem visitList_append (deps : α → List α) (rank : α → Nat) :
    ∀ (A B : List α),
      visitList deps rank (A ++ B) =
        visitList deps rank B ++ visitList deps rank A := by
  intro A B
  induction A with
  | nil => simp [visitList]
  | cons a A ih =>
    show visitList deps rank (A ++ B) ++ visitAt deps rank a = _
    rw [ih]
    show _ = visitList deps rank B ++ (visitList deps rank A ++ visitAt deps rank a)
    rw [List.append_assoc]

theorem visitList_reverse (deps : α → List α) (rank : α → Nat) :
    ∀ l : List α,
      visitList deps rank l.reverse = l.flatMap (visitAt deps rank) := by
  intro l
  induction l with
  | nil => rfl
  | cons x xs ih =>
    rw [List.reverse_cons, visitList_append, List.flatMap_cons, ← ih]
    show visitList deps rank [] ++ visitAt deps rank x ++ _ = _
    simp [visitList]

theorem schedulerCost_cons (deps : α → List α) (rank : α → Nat) (t : α)
    (S : List α) :
    schedulerCost deps rank (t :: S) =
      (visitAt deps rank t).length + schedulerCost deps rank S := by
  simp [schedulerCost]

theorem schedulerCost_reverse (deps : α → List α) (rank : α → Nat)
    (l : List α) :
    schedulerCost deps rank l.reverse = schedulerCost deps rank l := by
  simp [schedulerCost, List.map_reverse, List.sum_reverse]

theorem visitAt_length_eq (deps : α → List α) (rank : α → Nat)
    (hrank : ∀ t, ∀ d ∈ deps t, rank d < rank t) (t : α) :
    (visitAt deps rank t).length = schedulerCost deps rank (deps t) + 1 := by
  rw [visitAt_unfold deps rank hrank t]
  simp only [List.length_append, List.length_flatMap, List.length_singleton,
    schedulerCost]
  rfl

theorem schedulerLoop_nil (deps : α → List α) (fuel : Nat)
    (record : List α) : schedulerLoop deps fuel [] record = some record := by
  cases fuel <;> rfl

theorem schedulerLoop_run (deps : α → List α) (rank : α → Nat)
    (hrank : ∀ t, ∀ d ∈ deps t, rank d < rank t) :
    ∀ (c : Nat) (S : List α), schedulerCost deps rank S ≤ c →
      ∀ (fuel : Nat) (stack record : List α),
        schedulerLoop deps (schedulerCost deps rank S + fuel) (S ++ stack)
            record =
          schedulerLoop deps fuel stack (visitList deps rank S ++ record) := by
  intro c
  induction c with
  | zero =>
    intro S hS fuel stack record
    cases S with
    | nil => simp [visitList, schedulerCost]
    | cons t S =>
      exfalso
      have h1 := visitAt_length_pos deps rank hrank t
      rw [schedulerCost_cons] at hS
      omega
  | succ c ih =>
    intro S hS fuel stack record
    cases S with
    | nil => simp [visitList, schedulerCost]
    | cons t S =>
      have hlen := visitAt_length_eq deps rank hrank t
      have hrev : schedulerCost deps rank ((deps t).reverse) ≤ c := by
        rw [schedulerCost_reverse]
        rw [schedulerCost_cons, hlen] at hS
        omega
      have hS' : schedulerCost deps rank S ≤ c := by
        rw [schedulerCost_cons] at hS
        have := visitAt_length_pos deps rank hrank t
        omega
      have hstep : schedulerCost deps rank (t :: S) + fuel =
          (schedulerCost deps rank ((deps t).reverse) +
            (schedulerCost deps rank S + fuel)) + 1 := by
        rw [schedulerCost_cons, schedulerCost_reverse, hlen]
        omega
      rw [hstep, List.cons_append]
      have hone : schedulerLoop deps
          ((schedulerCost deps rank ((deps t).reverse) +
            (schedulerCost deps rank S + fuel)) + 1) (t :: (S ++ stack))
          record =
        schedulerLoop deps
          (schedulerCost deps rank ((deps t).reverse) +
            (schedulerCost deps rank S + fuel))
          ((deps t).reverse ++ (S ++ stack)) (t :: record) := rfl
      rw [hone, ih ((deps t).reverse) hrev _ (S ++ stack) (t :: record),
        ih S hS' fuel stack _]
      congr 1
      show visitList deps rank S ++
          (visitList deps rank ((deps t).reverse) ++ t :: record) =
        (visitList deps rank S ++ visitAt deps rank t) ++ record
      rw [List.append_assoc]
      congr 1
      rw [visitList_reverse, visitAt_unfold deps rank hrank t,
        List.append_assoc]
      rfl

theorem schedulerLoop_root (deps : α → List α) (rank : α → Nat)
    (hrank : ∀ t, ∀ d ∈ deps t, rank d < rank t) (root : α) :
    ∀ n, (visitAt deps rank root).length ≤ n →
      schedulerLoop deps n [root] [] = some (visitAt deps rank root) := by
  intro n hn
  have hc : schedulerCost deps rank [root] =
      (visitAt deps rank root).length := by
    simp [schedulerCost]
  have hsplit : n = schedulerCost deps rank [root] +
      (n - schedulerCost deps rank [root]) := by
    rw [hc]
    omega
  rw [hsplit]
  have h := schedulerLoop_run deps rank hrank
    (schedulerCost deps rank [root]) [root] (Nat.le_refl _)
    (n - schedulerCost deps rank [root]) [] []
  simp only [List.append_nil] at h
  rw [h, schedulerLoop_nil]
  simp [visitList]

theorem fidx_cons (y : α) (l : List α) (x : α) :
    fidx (y :: l) x = if y = x then 0 else fidx l x + 1 := rfl

theorem fidx_lt_length : ∀ (l : List α) (x : α), x ∈ l → fidx l x < l.length := by
  intro l
  induction l with
  | nil => intro x hx; simp at hx
  | cons y t ih =>
    intro x hx
    by_cases hyx : y = x
    · simp [fidx, hyx]
    · have hxt : x ∈ t := by
        rcases List.mem_cons.mp hx with h | h
        · exact absurd h.symm hyx
        · exact h
      simp only [fidx, hyx, if_false, List.length_cons]
      exact Nat.succ_lt_succ (ih x hxt)

theorem fidx_append_of_mem : ∀ (l₁ l₂ : List α) (x : α), x ∈ l₁ →
    fidx (l₁ ++ l₂) x = fidx l₁ x := by
  intro l₁
  induction l₁ with
  | nil => intro l₂ x hx; simp at hx
  | cons y t ih =>
    intro l₂ x hx
    by_cases hyx : y = x
    · show fidx (y :: (t ++ l₂)) x = _
      rw [fidx_cons, fidx_cons, if_pos hyx, if_pos hyx]
    · have hxt : x ∈ t := by
        rcases List.mem_cons.mp hx with h | h
        · exact absurd h.symm hyx
        · exact h
      show fidx (y :: (t ++ l₂)) x = _
      rw [fidx_cons, fidx_cons, if_neg hyx, if_neg hyx, ih l₂ x hxt]

theorem fidx_append_of_not_mem : ∀ (l₁ l₂ : List α) (x : α), x ∉ l₁ →
    fidx (l₁ ++ l₂) x = l₁.length + fidx l₂ x := by
  intro l₁
  induction l₁ with
  | nil => intro l₂ x _; simp [fidx]
  | cons y t ih =>
    intro l₂ x hx
    have hyx : y ≠ x := fun h => hx (h ▸ List.mem_cons_self y t)
    have hxt : x ∉ t := fun h => hx (List.mem_cons_of_mem y h)
    show fidx (y :: (t ++ l₂)) x = _
    rw [fidx_cons, if_neg hyx, ih l₂ x hxt]
    simp only [List.length_cons]
    omega

theorem mem_uniqueFirstAux : ∀ (l seen : List α) (x : α),
    x ∈ uniqueFirstAux seen l ↔ (x ∈ l ∧ x ∉ seen) := by
  intro l
  induction l with
  | nil => intro seen x; simp [uniqueFirstAux]
  | cons z t ih =>
    intro seen x
    by_cases hz : seen.contains z = true
    · rw [uniqueFirstAux, if_pos hz, ih seen x]
      have hzm : z ∈ seen := List.elem_iff.mp hz
      constructor
      · rintro ⟨hxt, hxs⟩
        exact ⟨List.mem_cons_of_mem z hxt, hxs⟩
      · rintro ⟨hxl, hxs⟩
        rcases List.mem_cons.mp hxl with hxz | hxt
        · exact absurd (hxz ▸ hzm) hxs
        · exact ⟨hxt, hxs⟩
    · rw [uniqueFirstAux, if_neg hz]
      have hzs : z ∉ seen := fun h => hz (List.elem_iff.mpr h)
      constructor
      · intro hx
        rcases List.mem_cons.mp hx with hxz | hxrest
        · subst hxz
          exact ⟨List.mem_cons_self x t, hzs⟩
        · obtain ⟨hxt, hxzs⟩ := (ih (z :: seen) x).mp hxrest
          exact ⟨List.mem_cons_of_mem z hxt,
            fun h => hxzs (List.mem_cons_of_mem z h)⟩
      · rintro ⟨hxl, hxs⟩
        by_cases hxz : x = z
        · exact hxz ▸ List.mem_cons_self z _
        · have hxt : x ∈ t := by
            rcases List.mem_cons.mp hxl with h | h
            · exact absurd h hxz
            · exact h
          apply List.mem_cons_of_mem
          apply (ih (z :: seen) x).mpr
          exact ⟨hxt, fun h => by
            rcases List.mem_cons.mp h with h1 | h1
            · exact hxz h1
            · exact hxs h1⟩

theorem nodup_uniqueFirstAux : ∀ (l seen : List α),
    (uniqueFirstAux seen l).Nodup := by
  intro l
  induction l with
  | nil => intro seen; exact List.nodup_nil
  | cons z t ih =>
    intro seen
    by_cases hz : seen.contains z = true
    · rw [uniqueFirstAux, if_pos hz]
      exact ih seen
    · rw [uniqueFirstAux, if_neg hz]
      apply List.nodup_cons.mpr
      refine ⟨?_, ih (z :: seen)⟩
      intro hmem
      exact ((mem_uniqueFirstAux t (z :: seen) z).mp hmem).2
        (List.mem_cons_self z seen)

theorem fidx_uniqueFirstAux_lt : ∀ (l seen : List α) (u v : α),
    v ∈ l → v ∉ seen → u ∉ seen → fidx l v < fidx l u →
    fidx (uniqueFirstAux seen l) v < fidx (uniqueFirstAux seen l) u := by
  intro l
  induction l with
  | nil => intro seen u v hv; simp at hv
  | cons z t ih =>
    intro seen u v hv hvs hus hlt
    by_cases hz : seen.contains z = true
    · rw [uniqueFirstAux, if_pos hz]
      have hzm : z ∈ seen := List.elem_iff.mp hz
      have hzv : z ≠ v := fun h => hvs (h ▸ hzm)
      have hzu : z ≠ u := fun h => hus (h ▸ hzm)
      have hvt : v ∈ t := by
        rcases List.mem_cons.mp hv with h | h
        · exact absurd h.symm hzv
        · exact h
      rw [fidx_cons z t v, fidx_cons z t u, if_neg hzv, if_neg hzu] at hlt
      exact ih seen u v hvt hvs hus (Nat.lt_of_succ_lt_succ hlt)
    · rw [uniqueFirstAux, if_neg hz]
      by_cases hzv : z = v
      · have hzu : z ≠ u := by
          intro h
          rw [fidx_cons z t u, if_pos h] at hlt
          exact absurd hlt (Nat.not_lt_zero _)
        rw [fidx_cons, if_pos hzv, fidx_cons, if_neg hzu]
        exact Nat.succ_pos _
      · have hzu : z ≠ u := by
          intro h
          rw [fidx_cons z t u, if_pos h] at hlt
          exact absurd hlt (Nat.not_lt_zero _)
        have hvt : v ∈ t := by
          rcases List.mem_cons.mp hv with h | h
          · exact absurd h.symm hzv
          · exact h
        rw [fidx_cons z t v, fidx_cons z t u, if_neg hzv, if_neg hzu] at hlt
        rw [fidx_cons, fidx_cons, if_neg hzv, if_neg hzu]
        apply Nat.succ_lt_succ
        apply ih (z :: seen) u v hvt
        · intro h
          rcases List.mem_cons.mp h with h1 | h1
          · exact hzv h1.symm
          · exact hvs h1
        · intro h
          rcases List.mem_cons.mp h with h1 | h1
          · exact hzu h1.symm
          · exact hus h1
        · exact Nat.lt_of_succ_lt_succ hlt

theorem blocks_order (deps : α → List α) (visit : α → List α) :
    ∀ (ds : List α),
      (∀ d ∈ ds, ∀ u v, u ∈ visit d → TransDepends deps u v →
        v ∈ visit d ∧ fidx (visit d) v < fidx (visit d) u) →
      ∀ u v, u ∈ ds.flatMap visit → TransDepends deps u v →
        v ∈ ds.flatMap visit ∧
          fidx (ds.flatMap visit) v < fidx (ds.flatMap visit) u := by
  intro ds
  induction ds with
  | nil => intro _ u v hu; simp at hu
  | cons d rest ih =>
    intro H u v hu htd
    rw [List.flatMap_cons] at hu ⊢
    by_cases hud : u ∈ visit d
    · obtain ⟨hv, hlt⟩ := H d (List.mem_cons_self d rest) u v hud htd
      refine ⟨List.mem_append_left _ hv, ?_⟩
      rw [fidx_append_of_mem _ _ _ hv, fidx_append_of_mem _ _ _ hud]
      exact hlt
    · have hur : u ∈ rest.flatMap visit := by
        rcases List.mem_append.mp hu with h | h
        · exact absurd h hud
        · exact h
      obtain ⟨hv, hlt⟩ := ih
        (fun d' hd' => H d' (List.mem_cons_of_mem d hd')) u v hur htd
      refine ⟨List.mem_append_right _ hv, ?_⟩
      rw [fidx_append_of_not_mem _ _ _ hud]
      by_cases hvd : v ∈ visit d
      · rw [fidx_append_of_mem _ _ _ hvd]
        exact Nat.lt_of_lt_of_le (fidx_lt_length _ _ hvd)
          (Nat.le_add_right _ _)
      · rw [fidx_append_of_not_mem _ _ _ hvd]
        exact Nat.add_lt_add_left hlt _

theorem visit_order (deps : α → List α) (rank : α → Nat)
    (hrank : ∀ t, ∀ d ∈ deps t, rank d < rank t) :
    ∀ (r : Nat) (t : α), rank t ≤ r → ∀ u v, u ∈ visitAt deps rank t →
      TransDepends deps u v →
      v ∈ visitAt deps rank t ∧
        fidx (visitAt deps rank t) v < fidx (visitAt deps rank t) u := by
  intro r
  induction r with
  | zero =>
    intro t ht u v hu htd
    have h0 : rank t = 0 := Nat.le_zero.mp ht
    rw [visitAt_unfold deps rank hrank t,
      deps_nil_of_rank_zero deps rank hrank t h0] at hu
    simp at hu
    subst hu
    obtain ⟨d, hd, _⟩ := htd
    rw [deps_nil_of_rank_zero deps rank hrank u h0] at hd
    simp at hd
  | succ r ih =>
    intro t ht u v hu htd
    rw [visitAt_unfold deps rank hrank t] at hu ⊢
    rcases List.mem_append.mp hu with huB | huT
    · have H : ∀ d ∈ deps t, ∀ u' v', u' ∈ visitAt deps rank d →
          TransDepends deps u' v' →
          v' ∈ visitAt deps rank d ∧
            fidx (visitAt deps rank d) v' < fidx (visitAt deps rank d) u' := by
        intro d hd
        exact ih d (Nat.lt_succ_iff.mp (Nat.lt_of_lt_of_le (hrank t d hd) ht))
      obtain ⟨hv, hlt⟩ :=
        blocks_order deps (visitAt deps rank) (deps t) H u v huB htd
      refine ⟨List.mem_append_left _ hv, ?_⟩
      rw [fidx_append_of_mem _ _ _ hv, fidx_append_of_mem _ _ _ huB]
      exact hlt
    · have hut : u = t := List.mem_singleton.mp huT
      subst hut
      obtain ⟨d, hd, hreach⟩ := htd
      have hvd : v ∈ visitAt deps rank d :=
        (mem_visitAt_iff_reaches deps rank hrank d v).mpr hreach
      have hvB : v ∈ (deps u).flatMap (visitAt deps rank) :=
        List.mem_flatMap.mpr ⟨d, hd, hvd⟩
      have huB' : u ∉ (deps u).flatMap (visitAt deps rank) := by
        intro hmem
        obtain ⟨d', hd', hud'⟩ := List.mem_flatMap.mp hmem
        have h1 := rank_le_of_reaches deps rank hrank
          ((mem_visitAt_iff_reaches deps rank hrank d' u).mp hud')
        have h2 := hrank u d' hd'
        omega
      refine ⟨List.mem_append_left _ hvB, ?_⟩
      rw [fidx_append_of_mem _ _ _ hvB, fidx_append_of_not_mem _ _ _ huB']
      have hlen := fidx_lt_length _ _ hvB
      have hz : fidx [u] u = 0 := by simp [fidx]
      omega

end SchedulerProofs

/-- C2: for every task table whose dependency relation is acyclic (witnessed
by a rank function strictly decreasing along declared dependencies) and
every root task, the two-stack scheduler loop terminates (given fuel at
least the record length; the record is the stable value for all larger
fuels), and the deduplicated execution order contains every
transitively-reachable task exactly once with all of its transitive
dependencies strictly before it; in particular, for the diamond A→[B,C],
B→[C], C→[D], D→[], the execution order is exactly [D, C, B, A]. -/
theorem claim_C2_scheduler_order :
    (∀ (α : Type) [DecidableEq α] (deps : α → List α) (rank : α → Nat),
      (∀ t, ∀ d ∈ deps t, rank d < rank t) →
      ∀ root : α, ∃ record : List α,
        (∀ n, (visitAt deps rank root).length ≤ n →
          schedulerLoop deps n [root] [] = some record) ∧
        (uniqueFirst record).Nodup ∧
        (∀ u, u ∈ uniqueFirst record ↔ Reaches deps root u) ∧
        (∀ u v, u ∈ uniqueFirst record → TransDepends deps u v →
          fidx (uniqueFirst record) v < fidx (uniqueFirst record) u)) ∧
    executionOrder diamondDeps 16 "A" = some ["D", "C", "B", "A"] := by
  constructor
  · intro α _ deps rank hrank root
    refine ⟨visitAt deps rank root,
      schedulerLoop_root deps rank hrank root, nodup_uniqueFirstAux _ [], ?_, ?_⟩
    · intro u
      unfold uniqueFirst
      rw [mem_uniqueFirstAux]
      simp [mem_visitAt_iff_reaches deps rank hrank root u]
    · intro u v hu htd
      unfold uniqueFirst at hu ⊢
      have hurec : u ∈ visitAt deps rank root :=
        ((mem_uniqueFirstAux _ [] u).mp hu).1
      obtain ⟨hv, hlt⟩ := visit_order deps rank hrank (rank root) root
        (Nat.le_refl _) u v hurec htd
      exact fidx_uniqueFirstAux_lt _ [] u v hv (by simp) (by simp) hlt
  · decide

/-- C2 witness: the concrete diamond table is acyclic under the given rank
function, and the scheduler properties hold for it at root "A". -/
theorem claim_C2_witness :
    (∀ t, ∀ d ∈ diamondDeps t, diamondRank d < diamondRank t) ∧
    (∃ record : List String,
      (∀ n, (visitAt diamondDeps diamondRank "A").length ≤ n →
        schedulerLoop diamondDeps n ["A"] [] = some record) ∧
      (uniqueFirst record).Nodup ∧
      (∀ u, u ∈ uniqueFirst record ↔ Reaches diamondDeps "A" u) ∧
      (∀ u v, u ∈ uniqueFirst record → TransDepends diamondDeps u v →
        fidx (uniqueFirst record) v < fidx (uniqueFirst record) u)) := by
  have hrank : ∀ t, ∀ d ∈ diamondDeps t, diamondRank d < diamondRank t := by
    intro t d hd
    unfold diamondDeps at hd
    by_cases h1 : t = "A"
    · rw [if_pos h1] at hd
      subst h1
      rcases List.mem_cons.mp hd with h | h
      · subst h; decide
      · rw [List.mem_singleton.mp h]; decide
    · rw [if_neg h1] at hd
      by_cases h2 : t = "B"
      · rw [if_pos h2] at hd
        subst h2
        rw [List.mem_singleton.mp hd]
        decide
      · rw [if_neg h2] at hd
        by_cases h3 : t = "C"
        · rw [if_pos h3] at hd
          subst h3
          rw [List.mem_singleton.mp hd]
          decide
        · rw [if_neg h3] at hd
          simp at hd
  exact ⟨hrank,
    claim_C2_scheduler_order.1 String diamondDeps diamondRank hrank "A"⟩

end Bakery
